import Mathlib

/-!
Verification of the thermalize printer command-encoding and raster-layout
engine.  The Go source is embedded shallowly: machine bytes become `Nat`
(with explicit `% 256` where the code narrows), `float64` page geometry
becomes `ℚ`, byte buffers become `Array Nat`, and the byte sink becomes an
explicit list of emitted events / bytes.
-/
/-! ## Rasterizer (constants.go)

A `color.Color` enters the gray decision only through its converted 8-bit
alpha (`color.AlphaModel`) and 8-bit luminance (`color.GrayModel`), so a
pixel color is modelled by those two values. -/
structure GoColor where
  alpha : Nat
  luma : Nat

/-- `gray` from constants.go: alpha below the threshold yields the value of
`invert`; otherwise luminance is compared against the threshold, with the
comparison direction flipped when `invert` is set. -/
def gray (c : GoColor) (level : Nat) (invert : Bool) : Bool :=
  if c.alpha < level then invert
  else if invert then decide (c.luma > level)
  else decide (c.luma < level)

/-- The process-wide default gray threshold (`defaultGrayLevel`). -/
def defaultGrayLevel : Nat := 127

/-- An image: pixel bounds size and the `At` accessor.  `pix x y` is the
color at `(x, y)`. -/
structure Img where
  X : Nat
  Y : Nat
  pix : Nat → Nat → GoColor

/-- One Go statement `data[i] |= m` on a byte slice. -/
def orBitAt (data : Array Nat) (i m : Nat) : Array Nat :=
  data.setD i (data.getD i 0 ||| m)

/-- `ImageToBin` from constants.go: the column-interleaved 24-dot-band
layout.  `level` is the value read from the global `grayLevel`. -/
def ImageToBin (img : Img) (level : Nat) (invert : Bool) : Nat × Array Nat :=
  let rows0 := img.Y / 24
  let rows1 := if img.Y % 24 ≠ 0 then rows0 + 1 else rows0
  let rows := rows1 * 3
  let shift := 3 * (img.X - 1)
  let data := Array.mkArray (rows * img.X) 0
  let data := (List.range img.Y).foldl (fun d y =>
    let n := y / 8 + y / 24 * shift
    (List.range img.X).foldl (fun d2 x =>
      if gray (img.pix x y) level invert then orBitAt d2 (n + x * 3) (128 >>> (y % 8)) else d2) d) data
  (img.X, data)

/-- `ImageToBit` from constants.go: the row-major layout. -/
def ImageToBit (img : Img) (level : Nat) (invert : Bool) : Nat × Array Nat :=
  let w0 := img.X / 8
  let w := if img.X % 8 ≠ 0 then w0 + 1 else w0
  let data := Array.mkArray (w * img.Y) 0
  let data := (List.range img.Y).foldl (fun d y =>
    (List.range img.X).foldl (fun d2 x =>
      if gray (img.pix x y) level invert then orBitAt d2 (y * w + x / 8) (128 >>> (x % 8)) else d2) d) data
  (w, data)

/-- `ImageToBytes` from constants.go: one byte per pixel, 255 for
background, 0 for foreground. -/
def ImageToBytes (img : Img) (level : Nat) (invert : Bool) : Nat × Array Nat :=
  let data := Array.mkArray (img.X * img.Y) 0
  let data := (List.range img.Y).foldl (fun d y =>
    (List.range img.X).foldl (fun d2 x =>
      if ¬ gray (img.pix x y) level invert then d2.setD (y * img.X + x) 255 else d2) d) data
  (img.X, data)

/-- Apply a list of `(index, mask)` or-updates in order. -/
def applyUpds (data : Array Nat) (us : List (Nat × Nat)) : Array Nat :=
  us.foldl (fun d u => orBitAt d u.1 u.2) data

/-- The `(offset, mask)` updates performed by `ImageToBin`'s loops. -/
def binUpds (img : Img) (level : Nat) (invert : Bool) : List (Nat × Nat) :=
  (List.range img.Y).flatMap fun y =>
    ((List.range img.X).filter fun x => gray (img.pix x y) level invert).map fun x =>
      (y / 8 + y / 24 * (3 * (img.X - 1)) + x * 3, 128 >>> (y % 8))

/-- A concrete 2×2 opaque checkerboard image. -/
def testImg : Img := ⟨2, 2, fun x y => ⟨255, if (x + y) % 2 = 0 then 0 else 255⟩⟩

/-! ## C5: row-major ("Bit") raster layout -/
/-- The stride computed by `ImageToBit` (bytes per row). -/
def bitW (X : Nat) : Nat := if X % 8 ≠ 0 then X / 8 + 1 else X / 8

/-- The `(offset, mask)` updates performed by `ImageToBit`'s loops. -/
def bitUpds (img : Img) (level : Nat) (invert : Bool) : List (Nat × Nat) :=
  (List.range img.Y).flatMap fun y =>
    ((List.range img.X).filter fun x => gray (img.pix x y) level invert).map fun x =>
      (y * bitW img.X + x / 8, 128 >>> (x % 8))

/-! ## Escape and Star dialect encoders (cmd_escape.go, cmd_star.go)

Each operation returns the list of bytes it writes to the sink (bytes are
`Nat` values below 256; Go's `byte(n)` narrowing is `n % 256`).  The
global gray threshold read by the rasterizer is passed as `level`. -/
/-- `minByte` from cmd_skipper.go (generic min). -/
def minByte (a b : Nat) : Nat := if a < b then a else b

/-- `maxByte` from cmd_skipper.go (generic max). -/
def maxByte (a b : Nat) : Nat := if a > b then a else b

/-- Go `bs[a:b]` on a byte slice (in-range use only). -/
def goSlice (s : List Nat) (a b : Nat) : List Nat := (s.take b).drop a

/-- `skipper` state: characters per line and pixels per line. -/
structure Skipper where
  cpl : Int
  ppl : Int

/-- `skipper.Sizing`: a zero argument keeps the stored value. -/
def Skipper.Sizing (c : Skipper) (cpl ppl : Int) : Skipper :=
  let c1 := if cpl ≠ 0 then { c with cpl := cpl } else c
  if ppl ≠ 0 then { c1 with ppl := ppl } else c1

/-- `skipper.CPL`. -/
def Skipper.CPL (c : Skipper) : Int := c.cpl

/-- `skipper.PPL`. -/
def Skipper.PPL (c : Skipper) : Int := c.ppl

/-- `BarcodeOptions` from options.go. -/
structure BarcodeOptions where
  Mode : Nat
  Width : Nat
  Height : Nat

/-- The `escape` encoder state: embedded skipper, the selected image
transfer variant (`WithImageFuncVersion`; 1, 2, anything else = obsolete),
the optional external barcode generator and the stored barcode
parameters. -/
structure EscapeSt where
  skipper : Skipper
  imageVersion : Nat
  barcodeFunc : Option (List Nat → BarcodeOptions → Img)
  barcodeWidth : Nat
  barcodeHeight : Nat

/-- The `star` encoder state. -/
structure StarSt where
  skipper : Skipper
  barcodeFunc : Option (List Nat → BarcodeOptions → Img)
  barcodeWidth : Nat
  barcodeHeight : Nat
  hriPosition : Nat

namespace escape

/-- `escape.TabPositions`: at most 32 stops, strictly increasing values
kept, `ESC D` prefix, `NUL` sentinel. -/
def TabPositions (bs : List Nat) : List Nat :=
  let l := bs.length
  if l = 0 then [] else
  let bs2 := if l > 32 then bs.take 32 else bs
  let st := bs2.foldl (fun (acc : List Nat × Nat) n =>
      if n ≤ acc.2 then acc else (acc.1 ++ [n], n)) ([27, 68], 0)
  st.1 ++ [0]

/-- `escape.OpenCashDrawer`: zero duration cancels; durations swapped when
given in reverse order; `ESC p m t1 t2`. -/
def OpenCashDrawer (m t1 t2 : Nat) : List Nat :=
  if t1 = 0 ∨ t2 = 0 then []
  else if t1 > t2 then [27, 112, minByte m 1, t2, t1]
  else [27, 112, minByte m 1, t1, t2]

/-- `escape.barcodeType`: the 14-entry code table. -/
def barcodeType (m : Nat) : Nat :=
  [65, 66, 68, 67, 69, 72, 73, 70, 71, 74, 75, 76, 77, 78].getD m 0

/-- `escape.imageV1` (`GS 8 L … GS ( L`): whole-image transfer of the
row-major buffer. -/
def imageV1 (level : Nat) (img : Img) (invert : Bool) : List Nat :=
  let wbs := ImageToBit img level invert
  let w := wbs.1
  let bs := wbs.2
  let l := bs.size
  if l = 0 then [] else
  let p := 10 + l
  let x := w * 8
  let y := l / w
  [29, 56, 76, p % 256, (p >>> 8) % 256, (p >>> 16) % 256, (p >>> 24) % 256,
    48, 112, 48, 1, 1, 49, x % 256, (x >>> 8) % 256, y % 256, (y >>> 8) % 256]
    ++ bs.toList ++ [29, 40, 76, 2, 0, 48, 2]

/-- The banded-transfer loop of `escape.imageV2` (fuel-totalized). -/
def bandLoopV2 (xl xh : Nat) (bs : List Nat) (block : Nat) : Nat → Nat → Nat → List Nat
  | 0, _, _ => []
  | fuel + 1, start, e =>
    if start < bs.length then
      let e2 := minByte e bs.length
      [27, 42, 33, xl, xh] ++ goSlice bs start e2 ++ [27, 74, 24]
        ++ bandLoopV2 xl xh bs block fuel e2 (e2 + block)
    else []

/-- `escape.imageV2` (`ESC * ! … ESC J`): 24-row banded transfer of the
column-interleaved buffer. -/
def imageV2 (level : Nat) (img : Img) (invert : Bool) : List Nat :=
  let wbs := ImageToBin img level invert
  let w := wbs.1
  let bs := wbs.2.toList
  bandLoopV2 (w % 256) ((w >>> 8) % 256) bs (w * 3) (bs.length + 1) 0 (w * 3)

/-- `escape.imageObsolete` (`GS v …`): whole-image transfer. -/
def imageObsolete (level : Nat) (img : Img) (invert : Bool) : List Nat :=
  let wbs := ImageToBit img level invert
  let w := wbs.1
  let bs := wbs.2
  let l := bs.size
  if l = 0 then [] else
  let h := l / w
  [29, 118, 0, 0, w % 256, (w >>> 8) % 256, h % 256, (h >>> 8) % 256] ++ bs.toList

/-- `escape.Image`: dispatch on the configured image function. -/
def Image (c : EscapeSt) (level : Nat) (img : Img) (invert : Bool) : List Nat :=
  match c.imageVersion with
  | 1 => imageV1 level img invert
  | 2 => imageV2 level img invert
  | _ => imageObsolete level img invert

/-- `escape.Barcode`: out-of-range mode clamps to 4; with a generator the
image pipeline is used, otherwise `GS k` plus the data. -/
def Barcode (c : EscapeSt) (level : Nat) (m : Nat) (s : List Nat) : List Nat :=
  let l := s.length
  if l = 0 then [] else
  let m2 := if m > 13 then 4 else m
  match c.barcodeFunc with
  | some f => Image c level (f s ⟨m2, c.barcodeWidth, c.barcodeHeight⟩) false
  | none => [29, 107, barcodeType m2, l % 256] ++ s

end escape

namespace star

/-- `star.TabPositions`: at most 16 stops, strictly increasing values
kept, `ESC D` prefix, `NUL` sentinel. -/
def TabPositions (bs : List Nat) : List Nat :=
  let l := bs.length
  if l = 0 then [] else
  let bs2 := if l > 16 then bs.take 16 else bs
  let st := bs2.foldl (fun (acc : List Nat × Nat) n =>
      if n ≤ acc.2 then acc else (acc.1 ++ [n], n)) ([27, 68], 0)
  st.1 ++ [0]

/-- `star.OpenCashDrawer`: zero duration cancels; otherwise the durations
are emitted in the order given (`ESC GS BEL m+1 t1 t2`). -/
def OpenCashDrawer (m t1 t2 : Nat) : List Nat :=
  if t1 = 0 ∨ t2 = 0 then []
  else [27, 29, 7, minByte m 1 + 1, t1, t2]

/-- `star.barcodeType`: the 14-entry code table. -/
def barcodeType (m : Nat) : Nat :=
  [49, 48, 50, 51, 52, 55, 54, 53, 56, 57, 65, 66, 67, 68].getD m 0

/-- The banded-transfer loop of `star.Image` (fuel-totalized). -/
def bandLoop (xl xh : Nat) (bs : List Nat) (block : Nat) : Nat → Nat → Nat → List Nat
  | 0, _, _ => []
  | fuel + 1, start, e =>
    if start < bs.length then
      let e2 := minByte e bs.length
      [18] ++ [27, 88, xl, xh] ++ goSlice bs start e2 ++ [27, 74, 12]
        ++ bandLoop xl xh bs block fuel e2 (e2 + block)
    else []

/-- `star.Image`: 24-row banded transfer of the column-interleaved
buffer. -/
def Image (level : Nat) (img : Img) (invert : Bool) : List Nat :=
  let wbs := ImageToBin img level invert
  let w := wbs.1
  let bs := wbs.2.toList
  bandLoop (w % 256) ((w >>> 8) % 256) bs (w * 3) (bs.length + 1) 0 (w * 3)

/-- `star.Barcode`: out-of-range mode clamps to 4; with a generator the
image pipeline is used, otherwise `ESC b` header, data, `RS`. -/
def Barcode (c : StarSt) (level : Nat) (m : Nat) (s : List Nat) : List Nat :=
  if s.length = 0 then [] else
  let m2 := if m > 13 then 4 else m
  match c.barcodeFunc with
  | some f => Image level (f s ⟨m2, c.barcodeWidth, c.barcodeHeight⟩) false
  | none =>
    [27, 98, barcodeType m2, minByte (maxByte c.hriPosition 1) 2,
      c.barcodeWidth, c.barcodeHeight] ++ s ++ [30]

end star

/-- Greedy strictly-increasing selection: the values kept by the
tab-position loops. -/
def incFilter : Nat → List Nat → List Nat
  | _, [] => []
  | prev, n :: ns => if n ≤ prev then incFilter prev ns else n :: incFilter n ns

/-- A concrete escape encoder state (no generator, obsolete image
variant). -/
def testEscape : EscapeSt := ⟨⟨48, 576⟩, 0, none, 3, 162⟩

/-- A concrete star encoder state (no generator). -/
def testStar : StarSt := ⟨⟨48, 576⟩, none, 3, 162, 1⟩

/-! ## Page-description (postscript) layout engine (cmd_postscript.go)

`float64` page geometry is embedded as `ℚ` (`charWidth = 4.25`,
`lineFeed = 10.8`, the scale factor `0.79`); each `Write` to the sink
becomes one abstract output event carrying the written parameters. -/
/-- `charWidth` = 4.25. -/
def charWidth : ℚ := 17 / 4

/-- `lineFeed` = 10.8 (also the bottom margin). -/
def lineFeed : ℚ := 54 / 5

/-- `styleRegular`. -/
def styleRegular : String := "Regular"

/-- `styleBold`. -/
def styleBold : String := "Bold"

/-- `piece`: one queued run of styled text. -/
structure Piece where
  data : List Nat
  x : ℚ
  w : ℚ
  tab : ℚ
  sizeX : Nat
  sizeY : Nat
  underling : Nat
  bold : Bool
deriving DecidableEq

/-- `row`: the pieces not yet flushed to the page. -/
structure Row where
  pieces : List Piece
  height : ℚ
  width : ℚ
  align : Nat
deriving DecidableEq

/-- `row.setHeight`: raise the row height to
`lineFeed * (1 if scale ≤ 1 else 0.79 * scale)`. -/
def Row.setHeight (r : Row) (h : Nat) : Row :=
  let q : ℚ := if h > 1 then 79 / 100 * (h : ℚ) else 1
  if lineFeed * q > r.height then { r with height := lineFeed * q } else r

/-- `row.reset`: clear pieces, height back to `lineFeed`, width 0. -/
def Row.reset (r : Row) : Row :=
  { r with pieces := [], height := lineFeed, width := 0 }

/-- `font`: the last-emitted font descriptor plus the dirty flag. -/
structure Font where
  style : String
  sizeX : Nat
  sizeY : Nat
  changed : Bool
deriving DecidableEq

/-- `defaultFont`. -/
def defaultFont : Font := ⟨styleRegular, 1, 1, true⟩

/-- `font.setStyle` (via `swap`): store the new descriptor and accumulate
the dirty flag whenever a component actually changed. -/
def Font.setStyle (f : Font) (b : Bool) (w h : Nat) : Font :=
  let style := if b then styleBold else styleRegular
  { style := style
    sizeX := w
    sizeY := h
    changed := ((f.changed || decide (f.style ≠ style)) || decide (f.sizeX ≠ w))
      || decide (f.sizeY ≠ h) }

/-- One `Write` of the postscript engine, abstracted by which instruction
it carries. -/
inductive Ev where
  | header (w h : ℚ)
  | fontSel (style : String) (scaleX : ℚ) (sizeY : Nat)
  | moveTo (x y : ℚ)
  | showText (data : List Nat)
  | stroke (weight : ℚ) (x0 y0 x1 y1 : ℚ)
  | imageCmd (offset y w h : ℚ) (width height : Nat) (body : List Nat)
  | showpage
deriving DecidableEq

/-- Is an event the raster-image instruction block? -/
def Ev.isImage : Ev → Bool
  | .imageCmd _ _ _ _ _ _ _ => true
  | _ => false

/-- The data shown by a `show` instruction, if any. -/
def showData : Ev → Option (List Nat)
  | .showText d => some d
  | _ => none

/-- Is an event the `showpage` instruction? -/
def isShowpage : Ev → Bool
  | .showpage => true
  | _ => false

/-- The `postscript` encoder state (geometry in `ℚ`, output as events). -/
structure PS where
  skipper : Skipper
  tabPositions : List ℚ
  width : ℚ
  height : ℚ
  x : ℚ
  y : ℚ
  tab : ℚ
  row : Row
  font : Font
  bold : Bool
  sizeX : Nat
  sizeY : Nat
  align : Nat
  underling : Nat
  out : List Ev

/-- Append one written event to the sink. -/
def emit (c : PS) (e : Ev) : PS := { c with out := c.out ++ [e] }

/-- `NewPostscript` (default options: page height 400). -/
def NewPostscript (cpl ppl : Int) : PS :=
  { skipper := ⟨cpl, ppl⟩
    tabPositions := [34, 68, 102, 136, 170, 204, 238, 272, 306, 340, 374, 408,
      442, 476, 510, 544, 578, 612, 646, 680, 714, 748, 782, 816, 850, 884,
      918, 952, 986, 1020, 1054]
    width := (cpl : ℚ) * charWidth + 1
    height := 400
    x := 0
    y := 400
    tab := 0
    row := ⟨[], 0, 0, 0⟩
    font := defaultFont
    bold := false
    sizeX := 1
    sizeY := 1
    align := 0
    underling := 0
    out := [] }

/-- `postscript.CPL` (inherited from the embedded skipper). -/
def PS.CPL (c : PS) : Int := c.skipper.cpl

/-- `postscript.PPL` (inherited from the embedded skipper). -/
def PS.PPL (c : PS) : Int := c.skipper.ppl

/-- `postscript.Sizing`: delegate to the skipper, and with nonzero `cpl`
recompute the page width. -/
def PS.Sizing (c : PS) (cpl ppl : Int) : PS :=
  let c := { c with skipper := c.skipper.Sizing cpl ppl }
  if cpl ≠ 0 then { c with width := (cpl : ℚ) * charWidth } else c

/-- Go `int(q)` on a float: truncation toward zero. -/
def goTrunc (q : ℚ) : Int := if 0 ≤ q then ⌊q⌋ else -⌊-q⌋

/-- Go `s[a:b]` with int indices (in-range use only). -/
def goSliceI (s : List Nat) (a b : Int) : List Nat := (s.take b.toNat).drop a.toNat

/-- The chunking loop of `postscript.splitString` (fuel-totalized; on
entry `e < s.length` holds). -/
def splitLoop (s : List Nat) (n : Int) : Nat → Int → Int → List (List Nat) → List (List Nat)
  | 0, _, _, chunks => chunks
  | fuel + 1, start, e, chunks =>
    let chunks := chunks ++ [goSliceI s start e]
    let start := e
    let e := e + n
    if e ≥ (s.length : Int) then chunks ++ [s.drop start.toNat]
    else splitLoop s n fuel start e chunks

/-- `postscript.splitString`: wrap by raw character count; the first chunk
budget comes from `(width - offset)`, later chunks from the full page
width. -/
def PS.splitString (c : PS) (s : List Nat) (offset width : ℚ) : List (List Nat) :=
  let n := goTrunc (c.width / width)
  let e : Int := if offset > 0 then goTrunc ((c.width - offset) / width) else n
  if e ≥ (s.length : Int) then [s]
  else splitLoop s n (s.length + 1) 0 e []

/-- `strings.ReplaceAll(p, "\\", "\\\\")` on encoded bytes. -/
def replaceBackslash : List Nat → List Nat
  | [] => []
  | b :: bs => (if b = 92 then [92, 92] else [b]) ++ replaceBackslash bs

/-- The bytes of `) show showEuro (`. -/
def euroExpansion : List Nat :=
  [41, 32, 115, 104, 111, 119, 32, 115, 104, 111, 119, 69, 117, 114, 111, 32, 40]

/-- `strings.ReplaceAll(d, "\x80", ") show showEuro (")` on encoded
bytes. -/
def replaceEuro : List Nat → List Nat
  | [] => []
  | b :: bs => (if b = 128 then euroExpansion else [b]) ++ replaceEuro bs

/-- `postscript.getOffset`: horizontal placement from the alignment. -/
def PS.getOffset (c : PS) (w : ℚ) : ℚ :=
  if c.align = 1 then (c.width - c.x - w) / 2
  else if c.align = 2 then c.width - c.x - w
  else 0

/-- `postscript.setPage`: write the page header. -/
def PS.setPage (c : PS) : PS := emit c (.header c.width c.height)

/-- `postscript.showPage`: cursor back to page height, font marked dirty,
`showpage` written. -/
def PS.showPage (c : PS) : PS :=
  let c := { c with y := c.height, font := { c.font with changed := true } }
  emit c .showpage

/-- `postscript.newPage` = `showPage` then `setPage`. -/
def PS.newPage (c : PS) : PS := c.showPage.setPage

/-- `postscript.setFont`: write a font selection only when the tracked
descriptor changed. -/
def PS.setFont (c : PS) : PS :=
  if c.font.changed then
    let c := emit c (.fontSel c.font.style (79 / 100 * (c.font.sizeX : ℚ)) c.font.sizeY)
    { c with font := { c.font with changed := false } }
  else c

/-- `postscript.moveTo`. -/
def PS.moveTo (c : PS) (x y : ℚ) : PS := emit c (.moveTo x y)

/-- `postscript.setLine`: the optional underline stroke. -/
def PS.setLine (c : PS) (underling : Nat) (offset width : ℚ) : PS :=
  if underling = 0 then c
  else
    let weight : ℚ := if underling = 2 then 3 / 4 else 1 / 4
    let y := c.y - 2
    emit c (.stroke weight offset y (offset + width) y)

/-- The per-piece body of the flush loop in `postscript.LineFeed`. -/
def flushPiece (c : PS) (offset : ℚ) (p : Piece) : PS × ℚ :=
  let c := { c with font := c.font.setStyle p.bold p.sizeX p.sizeY }
  let c := c.setFont
  let offset := offset + p.tab
  let c := c.moveTo offset c.y
  let c := emit c (.showText p.data)
  let c := c.setLine p.underling offset p.w
  (c, offset + p.w)

/-- `postscript.LineFeed`: advance the cursor by the row height, insert a
page break when the bottom margin is crossed, place and write every piece,
then clear the row. -/
def PS.LineFeed (c : PS) : PS :=
  let c := { c with y := c.y - c.row.height }
  let c := if c.y < lineFeed then
      let c2 := c.newPage
      { c2 with y := c2.y - c2.row.height }
    else c
  let st := c.row.pieces.foldl (fun (acc : PS × ℚ) p => flushPiece acc.1 acc.2 p)
    (c, c.getOffset c.row.width)
  let c := st.1
  { c with row := c.row.reset, x := 0 }

/-- The chunk loop of `postscript.Text`: every chunk after the first
forces a `LineFeed` before being queued. -/
def textLoop (c : PS) (parts : List (List Nat)) (charSizeX : ℚ) (first : Bool) : PS :=
  match parts with
  | [] => c
  | p :: rest =>
    let c := if first then c else c.LineFeed
    let c := { c with row := c.row.setHeight c.sizeY }
    let d := replaceEuro (replaceBackslash p)
    let pc : Piece :=
      { data := d
        x := 0
        w := (p.length : ℚ) * charSizeX
        tab := c.tab
        sizeX := c.sizeX
        sizeY := c.sizeY
        underling := c.underling
        bold := c.bold }
    let r2 : Row := { c.row with
      width := c.row.width + c.tab + pc.w
      pieces := c.row.pieces ++ [pc] }
    let c := { c with row := r2, tab := 0 }
    textLoop c rest charSizeX false

/-- The default `encoder`: raw bytes pass through unmodified. -/
def encoder (s : List Nat) : List Nat := s

/-- `postscript.Text`: encode, split into chunks that fit, queue each
chunk as a piece. -/
def PS.Text (c : PS) (s : List Nat) (enc : Option (List Nat → List Nat)) : PS :=
  if s.length = 0 then c
  else
    let s := match enc with
      | some f => f s
      | none => encoder s
    let c := { c with row := { c.row with align := c.align } }
    let charSizeX : ℚ := (c.sizeX : ℚ) * charWidth
    let parts := c.splitString s (c.tab + c.row.width) charSizeX
    textLoop c parts charSizeX true

/-- The bytes of the layout-overflow diagnostic written by
`postscript.image`. -/
def diagMsg : List Nat :=
  "the height of the image is greater than the height of the page".toList.map Char.toNat

/-- `postscript.image`: compute the device-space size; an image taller
than the page is replaced by the textual diagnostic; otherwise advance the
cursor (with the page-break check) and write the raster block. -/
def PS.image (c : PS) (width height : Nat) (bs : List Nat) : PS :=
  let w : ℚ := (width : ℚ) / ((c.PPL : ℚ) / c.width)
  let h : ℚ := w / ((width : ℚ) / (height : ℚ))
  if h > c.height then c.Text diagMsg none
  else
    let c := { c with y := c.y - h }
    let c := if c.y < lineFeed then
        let c2 := c.newPage
        { c2 with y := c2.y - h }
      else c
    let c := { c with y := c.y - 4 }
    emit c (.imageCmd (c.getOffset w) c.y w h width height bs)

/-! ### Support lemmas for the layout engine -/
/-- The per-piece line height: `lineFeed * (1 if scale ≤ 1 else
0.79 * scale)`. -/
def pieceHt (h : Nat) : ℚ := lineFeed * (if h > 1 then 79 / 100 * (h : ℚ) else 1)

/-- Maximum of a list of (nonnegative) heights. -/
def rowMax (l : List ℚ) : ℚ := l.foldl max 0

/-- The font descriptor after flushing a list of pieces. -/
def flushFont : List Piece → Font → Font
  | [], f => f
  | p :: ps, f =>
    let fs := f.setStyle p.bold p.sizeX p.sizeY
    flushFont ps (if fs.changed then { fs with changed := false } else fs)

/-- The events written while flushing a list of pieces at vertical
position `y`, starting at horizontal offset `off`. -/
def flushEvs : List Piece → Font → ℚ → ℚ → List Ev
  | [], _, _, _ => []
  | p :: ps, f, off, y =>
    let fs := f.setStyle p.bold p.sizeX p.sizeY
    ((if fs.changed then [Ev.fontSel fs.style (79 / 100 * (fs.sizeX : ℚ)) fs.sizeY] else [])
      ++ [Ev.moveTo (off + p.tab) y, Ev.showText p.data]
      ++ (if p.underling = 0 then [] else
          [Ev.stroke (if p.underling = 2 then 3 / 4 else 1 / 4) (off + p.tab) (y - 2)
            (off + p.tab + p.w) (y - 2)]))
      ++ flushEvs ps (if fs.changed then { fs with changed := false } else fs) (off + p.tab + p.w) y

/-- The running offset after flushing a list of pieces. -/
def flushOff : List Piece → ℚ → ℚ
  | [], off => off
  | p :: ps, off => flushOff ps (off + p.tab + p.w)

/-- A concrete state with one queued scale-1 piece for the C2 witness. -/
def testPS : PS :=
  { NewPostscript 48 576 with
    row := { pieces := [⟨[65], 0, charWidth, 0, 1, 1, 0, false⟩]
             height := lineFeed
             width := charWidth
             align := 0 } }

/-- The piece-data transformation applied by `Text` to each chunk. -/
def escData (q : List Nat) : List Nat := replaceEuro (replaceBackslash q)

/-- Specification of the chunk loop: final queued piece data and the data
flushed to the page, given the data already queued in the row. -/
def wrapShows (P0 : List (List Nat)) : List (List Nat) → List (List Nat) × List (List Nat)
  | [] => (P0, [])
  | q :: rest =>
    let pr := wrapShows [escData q] rest
    (pr.1, P0 ++ pr.2)

/-- The initial page-description state in the documentation's example
configuration (48 characters per line, 576 pixels per line). -/
def psC8 : PS := NewPostscript 48 576

/-! ### Generic lemmas about or-bit updates on a byte buffer -/
theorem size_orBitAt (d : Array Nat) (i m : Nat) : (orBitAt d i m).size = d.size := by
  simp [orBitAt, Array.setD]
  split <;> simp

theorem getD_orBitAt (d : Array Nat) (i m j : Nat) :
    (orBitAt d i m).getD j 0 =
      if j = i ∧ i < d.size then d.getD j 0 ||| m else d.getD j 0 := by
  unfold orBitAt Array.setD
  split
  · rename_i hi
    by_cases hji : j = i
    · subst hji
      simp [Array.getD, hi, Array.get_set_eq]
    · simp only [hji, false_and, if_false]
      unfold Array.getD
      split
      · rename_i hj
        have hj' : j < d.size := by simpa using hj
        simp [hj', Array.get_set, hji, Ne.symm hji]
      · rename_i hj
        have hj' : ¬ j < d.size := by simpa using hj
        simp [hj']
  · rename_i hi
    simp [hi]

theorem applyUpds_nil (d : Array Nat) : applyUpds d [] = d := rfl

theorem applyUpds_cons (d : Array Nat) (u : Nat × Nat) (us : List (Nat × Nat)) :
    applyUpds d (u :: us) = applyUpds (orBitAt d u.1 u.2) us := rfl

theorem applyUpds_append (d : Array Nat) (a b : List (Nat × Nat)) :
    applyUpds d (a ++ b) = applyUpds (applyUpds d a) b := by
  simp [applyUpds, List.foldl_append]

theorem size_applyUpds (d : Array Nat) (us : List (Nat × Nat)) :
    (applyUpds d us).size = d.size := by
  induction us generalizing d with
  | nil => rfl
  | cons u us ih => rw [applyUpds_cons, ih, size_orBitAt]

theorem testBit_applyUpds (us : List (Nat × Nat)) (d : Array Nat) (i b : Nat)
    (hin : ∀ u ∈ us, u.1 < d.size) :
    ((applyUpds d us).getD i 0).testBit b =
      (((d.getD i 0).testBit b) || us.any fun u => decide (u.1 = i) && u.2.testBit b) := by
  induction us generalizing d with
  | nil => simp [applyUpds_nil]
  | cons u us ih =>
    rw [applyUpds_cons]
    rw [ih (orBitAt d u.1 u.2)
      (fun v hv => by rw [size_orBitAt]; exact hin v (List.mem_cons_of_mem _ hv))]
    rw [getD_orBitAt]
    have hu : u.1 < d.size := hin u (List.mem_cons_self _ _)
    by_cases hiu : i = u.1
    · subst hiu
      simp [hu, Nat.testBit_or, Bool.or_assoc]
    · have hd : (decide (u.1 = i)) = false := decide_eq_false (fun h => hiu h.symm)
      simp [hiu, hd]

theorem foldl_if_orBitAt {α : Type} (xs : List α) (d : Array Nat)
    (p : α → Bool) (pos : α → Nat) (m : α → Nat) :
    xs.foldl (fun d2 x => if p x then orBitAt d2 (pos x) (m x) else d2) d
      = applyUpds d ((xs.filter p).map fun x => (pos x, m x)) := by
  induction xs generalizing d with
  | nil => rfl
  | cons x xs ih =>
    by_cases hx : p x
    · simp only [List.foldl_cons, hx, if_true, List.filter_cons, List.map_cons,
        applyUpds_cons]
      exact ih _
    · simp only [List.foldl_cons, hx, if_false, List.filter_cons, Bool.false_eq_true]
      exact ih _

/-! ## C3: per-pixel gray decision rule -/
/-- C3: the rasterizer's per-pixel foreground decision.  If alpha is below
the threshold the pixel is background unless `invert` is set; otherwise
the pixel is foreground exactly when its luminance is below the threshold
(comparison flipped under `invert`); and for fully opaque pixels the
decision is monotonic in luminance relative to the threshold. -/
theorem c3_gray_decision :
    ∀ (t : Nat) (inv : Bool) (c : GoColor),
      (c.alpha < t → gray c t inv = inv) ∧
      (t ≤ c.alpha →
        gray c t inv = (if inv then decide (t < c.luma) else decide (c.luma < t))) ∧
      (∀ c' : GoColor, c.alpha = 255 → c'.alpha = 255 → t ≤ 255 → c.luma ≤ c'.luma →
        (gray c' t false = true → gray c t false = true) ∧
        (gray c t true = true → gray c' t true = true)) := by
  intro t inv c
  refine ⟨fun h => ?_, fun h => ?_, fun c' ha ha' ht hl => ?_⟩
  · simp [gray, h]
  · have h' : ¬ c.alpha < t := Nat.not_lt.mpr h
    unfold gray
    rw [if_neg h']
  · have hna : ¬ c.alpha < t := by omega
    have hna' : ¬ c'.alpha < t := by omega
    have ef : ∀ cc : GoColor, ¬ cc.alpha < t → gray cc t false = decide (cc.luma < t) := by
      intro cc hcc
      unfold gray
      rw [if_neg hcc]
      simp
    have et : ∀ cc : GoColor, ¬ cc.alpha < t → gray cc t true = decide (t < cc.luma) := by
      intro cc hcc
      unfold gray
      rw [if_neg hcc]
      simp
    constructor
    · intro hfg
      rw [ef c' hna'] at hfg
      rw [ef c hna]
      simp only [decide_eq_true_eq] at hfg ⊢
      omega
    · intro hfg
      rw [et c hna] at hfg
      rw [et c' hna']
      simp only [decide_eq_true_eq] at hfg ⊢
      omega

/-- Witness for C3 at a concrete pixel and threshold. -/
theorem c3_gray_decision_witness :
    gray ⟨100, 5⟩ 127 false = false ∧ gray ⟨255, 5⟩ 127 false = true :=
  ⟨by
    have h := (c3_gray_decision 127 false ⟨100, 5⟩).1 (by decide)
    simpa using h,
   by
    have h := (c3_gray_decision 127 false ⟨255, 5⟩).2.1 (by decide)
    simpa using h⟩

/-! ### Characterizing the nested rasterizer loops -/
theorem foldl_foldl_orBitAt {α β : Type} (ys : List β) (xs : List α) (d : Array Nat)
    (p : α → β → Bool) (pos : α → β → Nat) (m : α → β → Nat) :
    ys.foldl (fun dd y => xs.foldl
        (fun d2 x => if p x y then orBitAt d2 (pos x y) (m x y) else d2) dd) d
      = applyUpds d (ys.flatMap fun y =>
          (xs.filter fun x => p x y).map fun x => (pos x y, m x y)) := by
  induction ys generalizing d with
  | nil => rfl
  | cons y ys ih =>
    rw [List.foldl_cons, List.flatMap_cons, applyUpds_append, foldl_if_orBitAt]
    exact ih _

theorem getD_mkArray_zero (n i : Nat) : (Array.mkArray n 0).getD i 0 = 0 := by
  unfold Array.getD
  split
  · simp
  · rfl

theorem testBit_mask (k b : Nat) (hk : k < 8) :
    (128 >>> k).testBit b = decide (b = 7 - k) := by
  have h128 : (128 : Nat) = 2 ^ 7 := rfl
  rw [Nat.testBit_shiftRight, h128, Nat.testBit_two_pow]
  exact decide_eq_decide.mpr (by omega)

theorem mul_add_lt_cancel {k a a' u u' : Nat} (hu : u < k) (hu' : u' < k)
    (h : a * k + u = a' * k + u') : a = a' ∧ u = u' := by
  have haux : ∀ c c' v v' : Nat, v < k → c < c' → c * k + v < c' * k + v' := by
    intro c c' v v' hv hc
    calc c * k + v < c * k + k := by omega
    _ = (c + 1) * k := by ring
    _ ≤ c' * k := Nat.mul_le_mul_right k hc
    _ ≤ c' * k + v' := Nat.le_add_right _ _
  have ha : a = a' := by
    rcases Nat.lt_trichotomy a a' with hlt | heq | hgt
    · exact absurd h (Nat.ne_of_lt (haux a a' u u' hu hlt))
    · exact heq
    · exact absurd h.symm (Nat.ne_of_lt (haux a' a u' u hu' hgt))
  refine ⟨ha, ?_⟩
  subst ha
  omega

theorem imageToBin_snd (img : Img) (level : Nat) (invert : Bool) :
    (ImageToBin img level invert).2 =
      applyUpds
        (Array.mkArray ((if img.Y % 24 ≠ 0 then img.Y / 24 + 1 else img.Y / 24) * 3 * img.X) 0)
        (binUpds img level invert) := by
  unfold ImageToBin binUpds
  simp only [Nat.mul_assoc]
  exact foldl_foldl_orBitAt (List.range img.Y) (List.range img.X) _
    (fun x y => gray (img.pix x y) level invert)
    (fun x y => y / 8 + y / 24 * (3 * (img.X - 1)) + x * 3)
    (fun x y => 128 >>> (y % 8))

theorem binPos_eq (X y x : Nat) (hX : 1 ≤ X) :
    y / 8 + y / 24 * (3 * (X - 1)) + x * 3 = y / 24 * (3 * X) + (y % 24 / 8 + 3 * x) := by
  have h1 : y / 8 = 3 * (y / 24) + y % 24 / 8 := by omega
  have h2 : 3 * X = 3 + 3 * (X - 1) := by omega
  rw [h1, h2, Nat.mul_add]
  ring

theorem binPos_lt (X Y y x : Nat) (hx : x < X) (hy : y < Y) :
    y / 8 + y / 24 * (3 * (X - 1)) + x * 3
      < (if Y % 24 ≠ 0 then Y / 24 + 1 else Y / 24) * 3 * X := by
  have hX : 1 ≤ X := by omega
  rw [binPos_eq X y x hX]
  have hQ : y / 24 + 1 ≤ (if Y % 24 ≠ 0 then Y / 24 + 1 else Y / 24) := by
    split <;> omega
  calc y / 24 * (3 * X) + (y % 24 / 8 + 3 * x)
      < y / 24 * (3 * X) + 3 * X := by omega
    _ = (y / 24 + 1) * (3 * X) := by ring
    _ ≤ (if Y % 24 ≠ 0 then Y / 24 + 1 else Y / 24) * (3 * X) :=
        Nat.mul_le_mul_right _ hQ
    _ = (if Y % 24 ≠ 0 then Y / 24 + 1 else Y / 24) * 3 * X := by ring

/-- Distinct pixels touch distinct (byte, bit) pairs in the Bin layout. -/
theorem binPos_inj (X Y y x y' x' : Nat) (hx : x < X) (hy : y < Y)
    (hx' : x' < X) (hy' : y' < Y)
    (hpos : y / 8 + y / 24 * (3 * (X - 1)) + x * 3
          = y' / 8 + y' / 24 * (3 * (X - 1)) + x' * 3)
    (hbit : 7 - y % 8 = 7 - y' % 8) : x = x' ∧ y = y' := by
  have hX : 1 ≤ X := by omega
  rw [binPos_eq X y x hX, binPos_eq X y' x' hX] at hpos
  have hu : y % 24 / 8 + 3 * x < 3 * X := by omega
  have hu' : y' % 24 / 8 + 3 * x' < 3 * X := by omega
  obtain ⟨hq, huu⟩ := mul_add_lt_cancel hu hu' hpos
  have h3 : x * 3 + y % 24 / 8 = x' * 3 + y' % 24 / 8 := by omega
  obtain ⟨hxx, hbb⟩ := mul_add_lt_cancel (k := 3) (by omega) (by omega) h3
  refine ⟨hxx, ?_⟩
  omega

/-! ## C4: column-interleaved ("Bin") raster layout -/
/-- C4: `ImageToBin` returns the pixel width and a buffer of exactly
`3 * ceil(H/24) * W` bytes in which bit `0x80 >> (y % 8)` of the byte at
offset `y/8 + (y/24)*3*(W-1) + x*3` is set iff pixel `(x, y)` is decided
foreground, and all other bits are zero. -/
theorem c4_imageToBin (img : Img) (level : Nat) (invert : Bool) :
    (ImageToBin img level invert).1 = img.X ∧
    (ImageToBin img level invert).2.size = 3 * ((img.Y + 23) / 24) * img.X ∧
    (∀ i b, (((ImageToBin img level invert).2.getD i 0).testBit b = true ↔
      ∃ x y, x < img.X ∧ y < img.Y ∧ gray (img.pix x y) level invert = true ∧
        i = y / 8 + y / 24 * (3 * (img.X - 1)) + x * 3 ∧ b = 7 - y % 8)) ∧
    (∀ x y, x < img.X → y < img.Y →
      (((ImageToBin img level invert).2.getD
          (y / 8 + y / 24 * (3 * (img.X - 1)) + x * 3) 0).testBit (7 - y % 8)
        = gray (img.pix x y) level invert)) := by
  have hbound : ∀ u ∈ binUpds img level invert,
      u.1 < (if img.Y % 24 ≠ 0 then img.Y / 24 + 1 else img.Y / 24) * 3 * img.X := by
    intro u hu
    unfold binUpds at hu
    rw [List.mem_flatMap] at hu
    obtain ⟨y, hyr, hu2⟩ := hu
    rw [List.mem_map] at hu2
    obtain ⟨x, hxf, rfl⟩ := hu2
    rw [List.mem_filter, List.mem_range] at hxf
    rw [List.mem_range] at hyr
    exact binPos_lt img.X img.Y y x hxf.1 hyr
  have hchar : ∀ i b, (((ImageToBin img level invert).2.getD i 0).testBit b = true ↔
      ∃ x y, x < img.X ∧ y < img.Y ∧ gray (img.pix x y) level invert = true ∧
        i = y / 8 + y / 24 * (3 * (img.X - 1)) + x * 3 ∧ b = 7 - y % 8) := by
    intro i b
    rw [imageToBin_snd, testBit_applyUpds _ _ _ _
      (by rw [Array.size_mkArray]; exact hbound)]
    rw [getD_mkArray_zero]
    simp only [Nat.zero_testBit, Bool.false_or]
    rw [List.any_eq_true]
    constructor
    · rintro ⟨u, hu, hP⟩
      unfold binUpds at hu
      rw [List.mem_flatMap] at hu
      obtain ⟨y, hyr, hu2⟩ := hu
      rw [List.mem_map] at hu2
      obtain ⟨x, hxf, rfl⟩ := hu2
      rw [List.mem_filter, List.mem_range] at hxf
      rw [List.mem_range] at hyr
      rw [Bool.and_eq_true, decide_eq_true_eq] at hP
      obtain ⟨hpos, hmask⟩ := hP
      rw [testBit_mask (y % 8) b (by omega), decide_eq_true_eq] at hmask
      exact ⟨x, y, hxf.1, hyr, hxf.2, hpos.symm, hmask⟩
    · rintro ⟨x, y, hx, hy, hg, rfl, rfl⟩
      refine ⟨(y / 8 + y / 24 * (3 * (img.X - 1)) + x * 3, 128 >>> (y % 8)), ?_, ?_⟩
      · unfold binUpds
        rw [List.mem_flatMap]
        refine ⟨y, List.mem_range.mpr hy, ?_⟩
        rw [List.mem_map]
        exact ⟨x, List.mem_filter.mpr ⟨List.mem_range.mpr hx, hg⟩, rfl⟩
      · rw [Bool.and_eq_true, decide_eq_true_eq]
        exact ⟨rfl, by rw [testBit_mask (y % 8) _ (by omega)]; simp⟩
  refine ⟨rfl, ?_, hchar, ?_⟩
  · rw [imageToBin_snd, size_applyUpds, Array.size_mkArray]
    have h1 : (if img.Y % 24 ≠ 0 then img.Y / 24 + 1 else img.Y / 24) = (img.Y + 23) / 24 := by
      split <;> omega
    rw [h1]
    ring
  · intro x y hx hy
    cases hg : gray (img.pix x y) level invert with
    | true =>
      exact (hchar _ _).mpr ⟨x, y, hx, hy, hg, rfl, rfl⟩
    | false =>
      cases htb : ((ImageToBin img level invert).2.getD
          (y / 8 + y / 24 * (3 * (img.X - 1)) + x * 3) 0).testBit (7 - y % 8) with
      | false => rfl
      | true =>
        obtain ⟨x', y', hx', hy', hg', hpos, hbit⟩ := (hchar _ _).mp htb
        obtain ⟨hxx, hyy⟩ := binPos_inj img.X img.Y y' x' y x hx' hy' hx hy hpos.symm hbit.symm
        rw [hxx, hyy] at hg'
        rw [hg'] at hg
        exact absurd hg (by simp)

/-- Witness for C4 at a concrete image and pixel. -/
theorem c4_imageToBin_witness :
    (ImageToBin testImg 127 false).1 = testImg.X ∧
    (((ImageToBin testImg 127 false).2.getD
        (0 / 8 + 0 / 24 * (3 * (testImg.X - 1)) + 0 * 3) 0).testBit (7 - 0 % 8)
      = gray (testImg.pix 0 0) 127 false) :=
  ⟨(c4_imageToBin testImg 127 false).1,
   (c4_imageToBin testImg 127 false).2.2.2 0 0 (by decide) (by decide)⟩

theorem bitW_eq (X : Nat) : bitW X = (X + 7) / 8 := by
  unfold bitW
  split <;> omega

theorem imageToBit_snd (img : Img) (level : Nat) (invert : Bool) :
    (ImageToBit img level invert).2 =
      applyUpds (Array.mkArray (bitW img.X * img.Y) 0) (bitUpds img level invert) := by
  unfold ImageToBit bitUpds bitW
  exact foldl_foldl_orBitAt (List.range img.Y) (List.range img.X) _
    (fun x y => gray (img.pix x y) level invert)
    (fun x y => y * (if img.X % 8 ≠ 0 then img.X / 8 + 1 else img.X / 8) + x / 8)
    (fun x y => 128 >>> (x % 8))

theorem bitPos_lt (X Y y x : Nat) (hx : x < X) (hy : y < Y) :
    y * bitW X + x / 8 < bitW X * Y := by
  have hxw : x / 8 < bitW X := by
    unfold bitW
    split <;> omega
  calc y * bitW X + x / 8 < y * bitW X + bitW X := by omega
    _ = (y + 1) * bitW X := by ring
    _ ≤ Y * bitW X := Nat.mul_le_mul_right _ (by omega)
    _ = bitW X * Y := Nat.mul_comm _ _

/-- Distinct pixels touch distinct (byte, bit) pairs in the Bit layout. -/
theorem bitPos_inj (X y x y' x' : Nat) (hx : x < X) (hx' : x' < X)
    (hpos : y * bitW X + x / 8 = y' * bitW X + x' / 8)
    (hbit : 7 - x % 8 = 7 - x' % 8) : x = x' ∧ y = y' := by
  have hxw : x / 8 < bitW X := by
    unfold bitW
    split <;> omega
  have hxw' : x' / 8 < bitW X := by
    unfold bitW
    split <;> omega
  obtain ⟨hyy, hdd⟩ := mul_add_lt_cancel hxw hxw' hpos
  refine ⟨by omega, hyy⟩

/-- C5: `ImageToBit` returns stride `ceil(W/8)` and a buffer of exactly
`stride * H` bytes in which bit `0x80 >> (x % 8)` of byte
`y * stride + x/8` is set iff pixel `(x, y)` is decided foreground, with
all padding bits zero. -/
theorem c5_imageToBit (img : Img) (level : Nat) (invert : Bool) :
    (ImageToBit img level invert).1 = (img.X + 7) / 8 ∧
    (ImageToBit img level invert).2.size = ((img.X + 7) / 8) * img.Y ∧
    (∀ i b, (((ImageToBit img level invert).2.getD i 0).testBit b = true ↔
      ∃ x y, x < img.X ∧ y < img.Y ∧ gray (img.pix x y) level invert = true ∧
        i = y * ((img.X + 7) / 8) + x / 8 ∧ b = 7 - x % 8)) ∧
    (∀ x y, x < img.X → y < img.Y →
      (((ImageToBit img level invert).2.getD (y * ((img.X + 7) / 8) + x / 8) 0).testBit
          (7 - x % 8)
        = gray (img.pix x y) level invert)) := by
  have hw : (ImageToBit img level invert).1 = bitW img.X := rfl
  have hbound : ∀ u ∈ bitUpds img level invert, u.1 < bitW img.X * img.Y := by
    intro u hu
    unfold bitUpds at hu
    rw [List.mem_flatMap] at hu
    obtain ⟨y, hyr, hu2⟩ := hu
    rw [List.mem_map] at hu2
    obtain ⟨x, hxf, rfl⟩ := hu2
    rw [List.mem_filter, List.mem_range] at hxf
    rw [List.mem_range] at hyr
    exact bitPos_lt img.X img.Y y x hxf.1 hyr
  have hchar : ∀ i b, (((ImageToBit img level invert).2.getD i 0).testBit b = true ↔
      ∃ x y, x < img.X ∧ y < img.Y ∧ gray (img.pix x y) level invert = true ∧
        i = y * ((img.X + 7) / 8) + x / 8 ∧ b = 7 - x % 8) := by
    intro i b
    rw [imageToBit_snd, testBit_applyUpds _ _ _ _
      (by rw [Array.size_mkArray]; exact hbound)]
    rw [getD_mkArray_zero]
    simp only [Nat.zero_testBit, Bool.false_or]
    rw [List.any_eq_true]
    constructor
    · rintro ⟨u, hu, hP⟩
      unfold bitUpds at hu
      rw [List.mem_flatMap] at hu
      obtain ⟨y, hyr, hu2⟩ := hu
      rw [List.mem_map] at hu2
      obtain ⟨x, hxf, rfl⟩ := hu2
      rw [List.mem_filter, List.mem_range] at hxf
      rw [List.mem_range] at hyr
      rw [Bool.and_eq_true, decide_eq_true_eq] at hP
      obtain ⟨hpos, hmask⟩ := hP
      rw [testBit_mask (x % 8) b (by omega), decide_eq_true_eq] at hmask
      rw [bitW_eq] at hpos
      exact ⟨x, y, hxf.1, hyr, hxf.2, hpos.symm, hmask⟩
    · rintro ⟨x, y, hx, hy, hg, rfl, rfl⟩
      refine ⟨(y * bitW img.X + x / 8, 128 >>> (x % 8)), ?_, ?_⟩
      · unfold bitUpds
        rw [List.mem_flatMap]
        refine ⟨y, List.mem_range.mpr hy, ?_⟩
        rw [List.mem_map]
        exact ⟨x, List.mem_filter.mpr ⟨List.mem_range.mpr hx, hg⟩, rfl⟩
      · rw [Bool.and_eq_true, decide_eq_true_eq]
        refine ⟨by rw [bitW_eq], by rw [testBit_mask (x % 8) _ (by omega)]; simp⟩
  refine ⟨by rw [hw, bitW_eq], ?_, hchar, ?_⟩
  · rw [imageToBit_snd, size_applyUpds, Array.size_mkArray, bitW_eq]
  · intro x y hx hy
    cases hg : gray (img.pix x y) level invert with
    | true =>
      exact (hchar _ _).mpr ⟨x, y, hx, hy, hg, rfl, rfl⟩
    | false =>
      cases htb : ((ImageToBit img level invert).2.getD
          (y * ((img.X + 7) / 8) + x / 8) 0).testBit (7 - x % 8) with
      | false => rfl
      | true =>
        obtain ⟨x', y', hx', hy', hg', hpos, hbit⟩ := (hchar _ _).mp htb
        rw [← bitW_eq] at hpos
        obtain ⟨hxx, hyy⟩ := bitPos_inj img.X y x y' x' hx hx' hpos hbit
        rw [← hxx, ← hyy] at hg'
        rw [hg'] at hg
        exact absurd hg (by simp)

/-- Witness for C5 at a concrete image and pixel. -/
theorem c5_imageToBit_witness :
    (ImageToBit testImg 127 false).1 = (testImg.X + 7) / 8 ∧
    (((ImageToBit testImg 127 false).2.getD
        (1 * ((testImg.X + 7) / 8) + 0 / 8) 0).testBit (7 - 0 % 8)
      = gray (testImg.pix 0 1) 127 false) :=
  ⟨(c5_imageToBit testImg 127 false).1,
   (c5_imageToBit testImg 127 false).2.2.2 0 1 (by decide) (by decide)⟩

/-! ## C6: tab-position list de-duplication -/
theorem tab_foldl_eq (bs : List Nat) (acc : List Nat) (prev : Nat) :
    (bs.foldl (fun (a : List Nat × Nat) n =>
        if n ≤ a.2 then a else (a.1 ++ [n], n)) (acc, prev)).1
      = acc ++ incFilter prev bs := by
  induction bs generalizing acc prev with
  | nil => simp [incFilter]
  | cons n ns ih =>
    by_cases h : n ≤ prev
    · simp only [List.foldl_cons, h, if_pos, incFilter]
      exact ih acc prev
    · simp only [List.foldl_cons, incFilter]
      rw [if_neg h, if_neg h]
      rw [ih (acc ++ [n]) n]
      simp

theorem incFilter_gt (bs : List Nat) : ∀ prev, ∀ x ∈ incFilter prev bs, prev < x := by
  induction bs with
  | nil => intro prev x hx; simp [incFilter] at hx
  | cons n ns ih =>
    intro prev x hx
    unfold incFilter at hx
    by_cases h : n ≤ prev
    · rw [if_pos h] at hx
      exact ih prev x hx
    · rw [if_neg h] at hx
      rcases List.mem_cons.mp hx with rfl | hx2
      · omega
      · have := ih n x hx2
        omega

theorem incFilter_chain (bs : List Nat) : ∀ prev, List.Chain' (· < ·) (incFilter prev bs) := by
  induction bs with
  | nil => intro prev; simp [incFilter]
  | cons n ns ih =>
    intro prev
    unfold incFilter
    by_cases h : n ≤ prev
    · rw [if_pos h]
      exact ih prev
    · rw [if_neg h]
      rw [List.chain'_cons']
      exact ⟨fun b hb => incFilter_gt ns n b (List.mem_of_mem_head? hb), ih n⟩

theorem incFilter_sublist (bs : List Nat) : ∀ prev, (incFilter prev bs).Sublist bs := by
  induction bs with
  | nil => intro prev; simp [incFilter]
  | cons n ns ih =>
    intro prev
    unfold incFilter
    by_cases h : n ≤ prev
    · rw [if_pos h]
      exact (ih prev).cons n
    · rw [if_neg h]
      exact (ih n).cons₂ n

/-- C6: the emitted tab-stop list keeps only the strictly increasing
values of the input, truncated to the dialect maximum (32 for escape, 16
for star), terminated with the `NUL` sentinel after the `ESC D` prefix;
`[10,5,20,20,30]` emits `[10,20,30]` plus the sentinel and an empty input
emits nothing. -/
theorem c6_tab_positions :
    (∀ bs : List Nat, bs ≠ [] →
      escape.TabPositions bs = [27, 68] ++ incFilter 0 (bs.take 32) ++ [0]) ∧
    (∀ bs : List Nat, bs ≠ [] →
      star.TabPositions bs = [27, 68] ++ incFilter 0 (bs.take 16) ++ [0]) ∧
    (∀ prev bs, List.Chain' (· < ·) (incFilter prev bs) ∧
      (incFilter prev bs).Sublist bs) ∧
    escape.TabPositions [] = [] ∧ star.TabPositions [] = [] ∧
    escape.TabPositions [10, 5, 20, 20, 30] = [27, 68, 10, 20, 30, 0] ∧
    star.TabPositions [10, 5, 20, 20, 30] = [27, 68, 10, 20, 30, 0] := by
  have htake : ∀ (k : Nat) (bs : List Nat),
      (if bs.length > k then bs.take k else bs) = bs.take k := by
    intro k bs
    split
    · rfl
    · rw [List.take_of_length_le (by omega)]
  refine ⟨?_, ?_, fun prev bs => ⟨incFilter_chain bs prev, incFilter_sublist bs prev⟩,
    rfl, rfl, by decide, by decide⟩
  · intro bs hbs
    have hlen : ¬ bs.length = 0 := by simpa using hbs
    simp only [escape.TabPositions]
    rw [if_neg hlen, htake 32 bs, tab_foldl_eq]
  · intro bs hbs
    have hlen : ¬ bs.length = 0 := by simpa using hbs
    simp only [star.TabPositions]
    rw [if_neg hlen, htake 16 bs, tab_foldl_eq]

/-- Witness for C6 at a concrete input list. -/
theorem c6_tab_positions_witness :
    escape.TabPositions [10, 5, 20, 20, 30]
      = [27, 68] ++ incFilter 0 ([10, 5, 20, 20, 30].take 32) ++ [0] :=
  c6_tab_positions.1 [10, 5, 20, 20, 30] (by decide)

/-! ## C7: cash-drawer pulse -/
/-- C7 counterexample: the star encoder does not swap reversed durations,
so a call with `t1 > t2` emits different bytes than the swapped call. -/
theorem c7_star_no_swap_counterexample :
    star.OpenCashDrawer 0 200 50 ≠ star.OpenCashDrawer 0 50 200 := by decide

/-- C7 (amended): the escape encoder swaps reversed durations; a zero
duration cancels the operation in both encoders; the star encoder emits
the durations exactly as given. -/
theorem c7_cash_drawer :
    (∀ m t1 t2 : Nat, t2 < t1 →
      escape.OpenCashDrawer m t1 t2 = escape.OpenCashDrawer m t2 t1) ∧
    (∀ m t : Nat, escape.OpenCashDrawer m 0 t = [] ∧ escape.OpenCashDrawer m t 0 = [] ∧
      star.OpenCashDrawer m 0 t = [] ∧ star.OpenCashDrawer m t 0 = []) ∧
    (∀ m t1 t2 : Nat, t1 ≠ 0 → t2 ≠ 0 →
      star.OpenCashDrawer m t1 t2 = [27, 29, 7, minByte m 1 + 1, t1, t2]) := by
  refine ⟨?_, ?_, ?_⟩
  · intro m t1 t2 h
    by_cases h2 : t2 = 0
    · subst h2
      simp [escape.OpenCashDrawer]
    · have h1 : ¬ t1 = 0 := by omega
      simp [escape.OpenCashDrawer, h1, h2, h, Nat.lt_asymm h]
  · intro m t
    refine ⟨by simp [escape.OpenCashDrawer], by simp [escape.OpenCashDrawer],
      by simp [star.OpenCashDrawer], by simp [star.OpenCashDrawer]⟩
  · intro m t1 t2 h1 h2
    unfold star.OpenCashDrawer
    rw [if_neg (by simp [h1, h2])]

/-- Witness for C7 (amended) at concrete durations. -/
theorem c7_cash_drawer_witness :
    escape.OpenCashDrawer 0 200 50 = escape.OpenCashDrawer 0 50 200 ∧
    star.OpenCashDrawer 0 200 50 = [27, 29, 7, minByte 0 1 + 1, 200, 50] :=
  ⟨c7_cash_drawer.1 0 200 50 (by decide), c7_cash_drawer.2.2 0 200 50 (by decide) (by decide)⟩

/-! ## C9: barcode mode clamping -/
/-- C9: an out-of-range barcode mode (here 99) encodes identically to
mode 4 (Code39) in both the escape and star encoders, for every non-empty
data string, encoder state and gray threshold. -/
theorem c9_barcode_mode_clamp :
    ∀ (ce : EscapeSt) (cs : StarSt) (level : Nat) (s : List Nat), s ≠ [] →
      escape.Barcode ce level 99 s = escape.Barcode ce level 4 s ∧
      star.Barcode cs level 99 s = star.Barcode cs level 4 s := by
  intro ce cs level s _
  constructor
  · unfold escape.Barcode
    norm_num
  · unfold star.Barcode
    norm_num

/-- Witness for C9 at concrete states and data. -/
theorem c9_barcode_mode_clamp_witness :
    escape.Barcode testEscape 127 99 [65] = escape.Barcode testEscape 127 4 [65] ∧
    star.Barcode testStar 127 99 [65] = star.Barcode testStar 127 4 [65] :=
  c9_barcode_mode_clamp testEscape testStar 127 [65] (by decide)

/-! ## C10: Sizing keeps stored values on zero arguments -/
/-- C10: `Sizing(cpl, ppl)` with a zero argument keeps the corresponding
stored value (as returned by `CPL`/`PPL`); only a nonzero argument
replaces it — in both the skipper base and the postscript encoder. -/
theorem c10_sizing :
    ∀ (c : Skipper) (p : PS) (cpl ppl : Int),
      (cpl = 0 → (c.Sizing cpl ppl).CPL = c.CPL ∧ (p.Sizing cpl ppl).CPL = p.CPL) ∧
      (ppl = 0 → (c.Sizing cpl ppl).PPL = c.PPL ∧ (p.Sizing cpl ppl).PPL = p.PPL) ∧
      (cpl ≠ 0 → (c.Sizing cpl ppl).CPL = cpl ∧ (p.Sizing cpl ppl).CPL = cpl) ∧
      (ppl ≠ 0 → (c.Sizing cpl ppl).PPL = ppl ∧ (p.Sizing cpl ppl).PPL = ppl) := by
  intro c p cpl ppl
  simp only [Skipper.Sizing, PS.Sizing, Skipper.CPL, Skipper.PPL, PS.CPL, PS.PPL]
  refine ⟨fun h => ?_, fun h => ?_, fun h => ?_, fun h => ?_⟩ <;>
    exact ⟨by split_ifs <;> simp_all, by split_ifs <;> simp_all⟩

/-- Witness for C10 at a concrete state. -/
theorem c10_sizing_witness :
    ((⟨48, 576⟩ : Skipper).Sizing 0 0).CPL = (⟨48, 576⟩ : Skipper).CPL ∧
    ((NewPostscript 48 576).Sizing 0 0).CPL = (NewPostscript 48 576).CPL :=
  (c10_sizing ⟨48, 576⟩ (NewPostscript 48 576) 0 0).1 rfl

theorem setHeight_height (r : Row) (h : Nat) :
    (r.setHeight h).height = max r.height (pieceHt h) := by
  unfold Row.setHeight pieceHt
  by_cases hgt : lineFeed * (if h > 1 then 79 / 100 * (h : ℚ) else 1) > r.height
  · rw [if_pos hgt]
    exact (max_eq_right (le_of_lt hgt)).symm
  · rw [if_neg hgt]
    exact (max_eq_left (le_of_not_lt hgt)).symm

theorem setHeight_frame (r : Row) (h : Nat) :
    (r.setHeight h).pieces = r.pieces ∧ (r.setHeight h).width = r.width ∧
      (r.setHeight h).align = r.align := by
  simp only [Row.setHeight]
  split <;> split <;> exact ⟨rfl, rfl, rfl⟩

theorem foldl_setHeight (hs : List Nat) :
    ∀ r : Row, (hs.foldl (fun r' h => r'.setHeight h) r).height
      = hs.foldl (fun a h => max a (pieceHt h)) r.height := by
  induction hs with
  | nil => intro r; rfl
  | cons h hs ih =>
    intro r
    rw [List.foldl_cons, List.foldl_cons, ih, setHeight_height]

theorem pieceHt_ge (h : Nat) : lineFeed ≤ pieceHt h := by
  unfold pieceHt lineFeed
  split
  · rename_i hgt
    have h2 : (2 : ℚ) ≤ (h : ℚ) := by exact_mod_cast hgt
    nlinarith
  · norm_num

theorem foldl_max_init (l : List ℚ) : ∀ a b : ℚ, l.foldl max (max a b) = max a (l.foldl max b) := by
  induction l with
  | nil => intro a b; rfl
  | cons x xs ih =>
    intro a b
    rw [List.foldl_cons, max_assoc, ih, List.foldl_cons]

theorem foldl_max_lineFeed (l : List ℚ) (hl : ∀ x ∈ l, lineFeed ≤ x) (hne : l ≠ []) :
    l.foldl max lineFeed = rowMax l := by
  match l, hne with
  | x :: xs, _ =>
    unfold rowMax
    rw [List.foldl_cons, List.foldl_cons]
    have hx : lineFeed ≤ x := hl x (List.mem_cons_self _ _)
    have h1 : max lineFeed x = x := max_eq_right hx
    have h2 : max 0 x = x := max_eq_right (le_trans (by norm_num [lineFeed]) hx)
    rw [h1, h2]

theorem newPage_eq (c : PS) :
    c.newPage = { c with
      y := c.height
      font := { c.font with changed := true }
      out := c.out ++ [Ev.showpage, Ev.header c.width c.height] } := by
  unfold PS.newPage PS.showPage PS.setPage emit
  simp

theorem showPage_facts (d : PS) : (d.showPage).y = d.height ∧ (d.showPage).font.changed = true :=
  ⟨rfl, rfl⟩

theorem flushPiece_spec (c : PS) (off : ℚ) (p : Piece) :
    ∃ (es : List Ev) (f2 : Font),
      flushPiece c off p = ({ c with font := f2, out := c.out ++ es }, off + p.tab + p.w) ∧
      es.filterMap showData = [p.data] ∧
      es.countP isShowpage = 0 ∧
      ∀ e ∈ es, e.isImage = false := by
  unfold flushPiece PS.setFont PS.moveTo PS.setLine emit
  by_cases hch : (c.font.setStyle p.bold p.sizeX p.sizeY).changed
  · by_cases hu : p.underling = 0
    · refine ⟨[Ev.fontSel (c.font.setStyle p.bold p.sizeX p.sizeY).style
          (79 / 100 * ((c.font.setStyle p.bold p.sizeX p.sizeY).sizeX : ℚ))
          (c.font.setStyle p.bold p.sizeX p.sizeY).sizeY,
        Ev.moveTo (off + p.tab) c.y, Ev.showText p.data],
        { c.font.setStyle p.bold p.sizeX p.sizeY with changed := false }, ?_, ?_, ?_, ?_⟩
      · simp [hch, hu]
      · simp [showData]
      · simp [List.countP_cons, isShowpage]
      · simp [Ev.isImage]
    · refine ⟨[Ev.fontSel (c.font.setStyle p.bold p.sizeX p.sizeY).style
          (79 / 100 * ((c.font.setStyle p.bold p.sizeX p.sizeY).sizeX : ℚ))
          (c.font.setStyle p.bold p.sizeX p.sizeY).sizeY,
        Ev.moveTo (off + p.tab) c.y, Ev.showText p.data,
        Ev.stroke (if p.underling = 2 then 3 / 4 else 1 / 4) (off + p.tab) (c.y - 2)
          (off + p.tab + p.w) (c.y - 2)],
        { c.font.setStyle p.bold p.sizeX p.sizeY with changed := false }, ?_, ?_, ?_, ?_⟩
      · simp [hch, hu]
      · simp [showData]
      · simp [List.countP_cons, isShowpage]
      · simp [Ev.isImage]
  · by_cases hu : p.underling = 0
    · refine ⟨[Ev.moveTo (off + p.tab) c.y, Ev.showText p.data],
        c.font.setStyle p.bold p.sizeX p.sizeY, ?_, ?_, ?_, ?_⟩
      · simp [hch, hu]
      · simp [showData]
      · simp [List.countP_cons, isShowpage]
      · simp [Ev.isImage]
    · refine ⟨[Ev.moveTo (off + p.tab) c.y, Ev.showText p.data,
        Ev.stroke (if p.underling = 2 then 3 / 4 else 1 / 4) (off + p.tab) (c.y - 2)
          (off + p.tab + p.w) (c.y - 2)],
        c.font.setStyle p.bold p.sizeX p.sizeY, ?_, ?_, ?_, ?_⟩
      · simp [hch, hu]
      · simp [showData]
      · simp [List.countP_cons, isShowpage]
      · simp [Ev.isImage]

theorem flushPiece_eq (c : PS) (off : ℚ) (p : Piece) :
    flushPiece c off p
      = ({ c with
            font := (let fs := c.font.setStyle p.bold p.sizeX p.sizeY
              if fs.changed then { fs with changed := false } else fs)
            out := c.out ++
              ((if (c.font.setStyle p.bold p.sizeX p.sizeY).changed then
                  [Ev.fontSel (c.font.setStyle p.bold p.sizeX p.sizeY).style
                    (79 / 100 * ((c.font.setStyle p.bold p.sizeX p.sizeY).sizeX : ℚ))
                    (c.font.setStyle p.bold p.sizeX p.sizeY).sizeY]
                else [])
                ++ [Ev.moveTo (off + p.tab) c.y, Ev.showText p.data]
                ++ (if p.underling = 0 then [] else
                    [Ev.stroke (if p.underling = 2 then 3 / 4 else 1 / 4) (off + p.tab)
                      (c.y - 2) (off + p.tab + p.w) (c.y - 2)])) },
          off + p.tab + p.w) := by
  unfold flushPiece PS.setFont PS.moveTo PS.setLine emit
  by_cases hch : (c.font.setStyle p.bold p.sizeX p.sizeY).changed <;>
    by_cases hu : p.underling = 0 <;>
      simp [hch, hu, List.append_assoc]

theorem flushFold_eq (ps : List Piece) : ∀ (c : PS) (off : ℚ),
    ps.foldl (fun acc p => flushPiece acc.1 acc.2 p) (c, off)
      = ({ c with
            font := flushFont ps c.font
            out := c.out ++ flushEvs ps c.font off c.y }, flushOff ps off) := by
  induction ps with
  | nil =>
    intro c off
    simp [flushFont, flushEvs, flushOff]
  | cons p ps ih =>
    intro c off
    rw [List.foldl_cons, flushPiece_eq, ih]
    simp only [flushFont, flushEvs, flushOff]
    simp [List.append_assoc]

theorem flushEvs_filterMap (ps : List Piece) : ∀ (f : Font) (off y : ℚ),
    (flushEvs ps f off y).filterMap showData = ps.map Piece.data := by
  induction ps with
  | nil => intro f off y; rfl
  | cons p ps ih =>
    intro f off y
    simp only [flushEvs, List.map_cons]
    rw [List.filterMap_append]
    rw [ih]
    by_cases hch : (f.setStyle p.bold p.sizeX p.sizeY).changed <;>
      by_cases hu : p.underling = 0 <;>
        simp [hch, hu, showData]

theorem flushEvs_countP (ps : List Piece) : ∀ (f : Font) (off y : ℚ),
    (flushEvs ps f off y).countP isShowpage = 0 := by
  induction ps with
  | nil => intro f off y; rfl
  | cons p ps ih =>
    intro f off y
    simp only [flushEvs]
    rw [List.countP_append]
    rw [ih]
    by_cases hch : (f.setStyle p.bold p.sizeX p.sizeY).changed <;>
      by_cases hu : p.underling = 0 <;>
        simp [hch, hu, List.countP_cons, List.countP_append, isShowpage]

theorem flushEvs_noImage (ps : List Piece) : ∀ (f : Font) (off y : ℚ),
    ∀ e ∈ flushEvs ps f off y, e.isImage = false := by
  induction ps with
  | nil => intro f off y e he; simp [flushEvs] at he
  | cons p ps ih =>
    intro f off y e he
    simp only [flushEvs, List.mem_append] at he
    rcases he with he | he
    · rcases he with he | he
      · by_cases hch : (f.setStyle p.bold p.sizeX p.sizeY).changed
        · simp [hch] at he
          rcases he with rfl | rfl | rfl <;> rfl
        · simp [hch] at he
          rcases he with rfl | rfl <;> rfl
      · by_cases hu : p.underling = 0 <;>
          simp [hu] at he <;> rcases he with rfl | rfl | rfl <;> rfl
    · exact ih _ _ _ e he

theorem lineFeed_eq (c : PS) :
    c.LineFeed =
      if c.y - c.row.height < lineFeed then
        { c with
          y := c.height - c.row.height
          row := c.row.reset
          x := 0
          font := flushFont c.row.pieces { c.font with changed := true }
          out := (c.out ++ [Ev.showpage, Ev.header c.width c.height])
            ++ flushEvs c.row.pieces { c.font with changed := true }
              (c.getOffset c.row.width) (c.height - c.row.height) }
      else
        { c with
          y := c.y - c.row.height
          row := c.row.reset
          x := 0
          font := flushFont c.row.pieces c.font
          out := c.out ++ flushEvs c.row.pieces c.font
            (c.getOffset c.row.width) (c.y - c.row.height) } := by
  simp only [PS.LineFeed]
  by_cases hbr : c.y - c.row.height < lineFeed
  · rw [if_pos hbr, if_pos hbr, newPage_eq]
    dsimp only
    rw [flushFold_eq]
    dsimp only
    have hoff : PS.getOffset { c with
        y := c.height - c.row.height
        font := { c.font with changed := true }
        out := c.out ++ [Ev.showpage, Ev.header c.width c.height] } c.row.width
        = c.getOffset c.row.width := by
      simp [PS.getOffset]
    rw [hoff]
  · rw [if_neg hbr, if_neg hbr]
    rw [flushFold_eq]
    dsimp only
    have hoff : PS.getOffset { c with y := c.y - c.row.height } c.row.width
        = c.getOffset c.row.width := by
      simp [PS.getOffset]
    rw [hoff]

/-! ## C2: line flush, row height and pagination -/
/-- C2: a line flush decrements the vertical cursor by the row height —
the maximum over the row's pieces of `lineFeed × (1 if scale ≤ 1 else
0.79 × scale)` as accumulated by `setHeight` from a reset row; when the
decremented cursor falls below the bottom margin exactly one page break is
emitted (`showpage` followed by a new page header) and the cursor ends at
page height minus the row height; `showPage` resets the cursor to page
height and marks the font state dirty. -/
theorem c2_line_flush (c : PS) (hs : List Nat) (hne : hs ≠ [])
    (hrow : c.row.height = (hs.map pieceHt).foldl max lineFeed) :
    (∀ r : Row, (hs.foldl (fun r' h => r'.setHeight h) r.reset).height
        = (hs.map pieceHt).foldl max lineFeed) ∧
    (hs.map pieceHt).foldl max lineFeed = rowMax (hs.map pieceHt) ∧
    (c.LineFeed).y
      = (if c.y - (hs.map pieceHt).foldl max lineFeed < lineFeed then c.height else c.y)
        - (hs.map pieceHt).foldl max lineFeed ∧
    (∃ es, (c.LineFeed).out = c.out ++ es ∧
      es.countP isShowpage
        = (if c.y - (hs.map pieceHt).foldl max lineFeed < lineFeed then 1 else 0) ∧
      (c.y - (hs.map pieceHt).foldl max lineFeed < lineFeed →
        es.take 2 = [Ev.showpage, Ev.header c.width c.height])) ∧
    (∀ d : PS, (d.showPage).y = d.height ∧ (d.showPage).font.changed = true) := by
  refine ⟨?_, ?_, ?_, ?_, showPage_facts⟩
  · intro r
    rw [foldl_setHeight, List.foldl_map]
    rfl
  · apply foldl_max_lineFeed
    · intro x hx
      obtain ⟨a, _, rfl⟩ := List.mem_map.mp hx
      exact pieceHt_ge a
    · simpa using hne
  · rw [← hrow, lineFeed_eq]
    split <;> rfl
  · rw [← hrow, lineFeed_eq]
    by_cases hbr : c.y - c.row.height < lineFeed
    · rw [if_pos hbr, if_pos hbr]
      refine ⟨[Ev.showpage, Ev.header c.width c.height]
        ++ flushEvs c.row.pieces { c.font with changed := true }
          (c.getOffset c.row.width) (c.height - c.row.height), ?_, ?_, ?_⟩
      · dsimp only
        rw [List.append_assoc]
      · rw [List.countP_append, flushEvs_countP]
        simp [List.countP_cons, isShowpage]
      · intro _
        rfl
    · rw [if_neg hbr, if_neg hbr]
      exact ⟨flushEvs c.row.pieces c.font (c.getOffset c.row.width) (c.y - c.row.height),
        rfl, by simp [flushEvs_countP], fun hcontra => absurd hcontra hbr⟩

/-- Witness for C2 at a concrete state and scale list. -/
theorem c2_line_flush_witness :
    (testPS.LineFeed).y
      = (if testPS.y - ([1].map pieceHt).foldl max lineFeed < lineFeed then testPS.height
          else testPS.y)
        - ([1].map pieceHt).foldl max lineFeed :=
  (c2_line_flush testPS [1] (by decide) (by simp [testPS, pieceHt])).2.2.1

/-! ## C1: text wrapping by raw character count -/
theorem splitLoop_prefix (s : List Nat) (n : Int) :
    ∀ (fuel : Nat) (start e : Int) (chunks : List (List Nat)),
      ∃ tail, splitLoop s n fuel start e chunks = chunks ++ tail := by
  intro fuel
  induction fuel with
  | zero =>
    intro start e chunks
    exact ⟨[], by simp [splitLoop]⟩
  | succ fuel ih =>
    intro start e chunks
    simp only [splitLoop]
    by_cases hc : e + n ≥ (s.length : Int)
    · rw [if_pos hc]
      exact ⟨[goSliceI s start e, s.drop e.toNat], by simp⟩
    · rw [if_neg hc]
      obtain ⟨tail, htail⟩ := ih e (e + n) (chunks ++ [goSliceI s start e])
      exact ⟨goSliceI s start e :: tail, by rw [htail]; simp⟩

theorem splitString_zero_offset (c : PS) (s : List Nat) (w : ℚ) (N : Nat)
    (hN : goTrunc (c.width / w) = (N : Int)) (hN1 : 1 ≤ N) (hlen : s.length = 2 * N + 1) :
    c.splitString s 0 w = [s.take N, (s.drop N).take N, s.drop (2 * N)] := by
  simp only [PS.splitString]
  rw [if_neg (by norm_num : ¬ (0 : ℚ) > 0), hN, hlen]
  rw [if_neg (by push_cast; omega : ¬ ((N : Int) ≥ ((2 * N + 1 : Nat) : Int)))]
  simp only [splitLoop]
  rw [if_neg (by push_cast; omega : ¬ ((N : Int) + (N : Int) ≥ (s.length : Int)))]
  rw [if_pos (by push_cast; omega :
    (N : Int) + (N : Int) + (N : Int) ≥ (s.length : Int))]
  have e1 : goSliceI s 0 (N : Int) = s.take N := by
    simp [goSliceI]
  have e2 : goSliceI s (N : Int) ((N : Int) + (N : Int)) = (s.drop N).take N := by
    unfold goSliceI
    have h1 : ((N : Int) + (N : Int)).toNat = N + N := by omega
    have h2 : ((N : Int)).toNat = N := by omega
    rw [h1, h2, List.drop_take]
    congr 1
    omega
  have e3 : s.drop ((N : Int) + (N : Int)).toNat = s.drop (2 * N) := by
    congr 1
    omega
  rw [e1, e2, e3]
  rfl

theorem splitString_first_budget (c : PS) (s : List Nat) (off w : ℚ) (e n : Nat)
    (hoff : 0 < off) (he : goTrunc ((c.width - off) / w) = (e : Int))
    (hn : goTrunc (c.width / w) = (n : Int)) (hn1 : 1 ≤ n) (hlt : e < s.length) :
    ∃ rest, c.splitString s off w = s.take e :: rest ∧
      (e + n < s.length → ∃ rest2, rest = (s.drop e).take n :: rest2) := by
  have hsl : goSliceI s 0 (e : Int) = s.take e := by
    simp [goSliceI]
  have hsl2 : goSliceI s (e : Int) ((e : Int) + (n : Int)) = (s.drop e).take n := by
    unfold goSliceI
    have h1 : ((e : Int) + (n : Int)).toNat = e + n := by omega
    have h2 : ((e : Int)).toNat = e := by omega
    rw [h1, h2, List.drop_take]
    congr 1
    omega
  simp only [PS.splitString]
  rw [if_pos hoff, he, hn]
  rw [if_neg (by push_cast; omega : ¬ ((e : Int) ≥ (s.length : Int)))]
  obtain ⟨k, hk⟩ : ∃ k, s.length = k + 1 := ⟨s.length - 1, by omega⟩
  simp only [splitLoop]
  by_cases h2 : (e : Int) + (n : Int) ≥ (s.length : Int)
  · rw [if_pos h2]
    refine ⟨[s.drop ((e : Int)).toNat], ?_, ?_⟩
    · rw [hsl]
      rfl
    · intro hcon
      exfalso
      push_cast at h2
      omega
  · rw [if_neg h2]
    rw [show (splitLoop s (n : Int) s.length) = splitLoop s (n : Int) (k + 1) from by rw [hk]]
    simp only [splitLoop]
    by_cases h3 : (e : Int) + (n : Int) + (n : Int) ≥ (s.length : Int)
    · rw [if_pos h3]
      refine ⟨[(s.drop e).take n, s.drop ((e : Int) + (n : Int)).toNat], ?_, ?_⟩
      · rw [hsl, hsl2]
        rfl
      · intro _
        exact ⟨[s.drop ((e : Int) + (n : Int)).toNat], rfl⟩
    · rw [if_neg h3]
      obtain ⟨tail, htail⟩ := splitLoop_prefix s (n : Int) k ((e : Int) + (n : Int))
        ((e : Int) + (n : Int) + (n : Int))
        (([] ++ [goSliceI s 0 (e : Int)]) ++ [goSliceI s (e : Int) ((e : Int) + (n : Int))])
      rw [htail, hsl, hsl2]
      refine ⟨(s.drop e).take n :: tail, by simp, ?_⟩
      intro _
      exact ⟨tail, rfl⟩

theorem escData_id (t : List Nat) (h : ∀ b ∈ t, b ≠ 92 ∧ b ≠ 128) :
    escData t = t := by
  induction t with
  | nil => rfl
  | cons b bs ih =>
    have hb := h b (List.mem_cons_self _ _)
    have ihr : escData bs = bs := ih (fun x hx => h x (List.mem_cons_of_mem _ hx))
    unfold escData at ihr ⊢
    simp only [replaceBackslash, if_neg hb.1, List.singleton_append]
    simp only [replaceEuro, if_neg hb.2, List.singleton_append]
    rw [ihr]

theorem lineFeed_facts (c : PS) :
    ∃ es, c.LineFeed = { c with
        y := (c.LineFeed).y
        row := c.row.reset
        x := 0
        font := (c.LineFeed).font
        out := c.out ++ es } ∧
      es.filterMap showData = c.row.pieces.map Piece.data ∧
      ∀ e ∈ es, e.isImage = false := by
  by_cases hbr : c.y - c.row.height < lineFeed
  · refine ⟨[Ev.showpage, Ev.header c.width c.height]
      ++ flushEvs c.row.pieces { c.font with changed := true }
        (c.getOffset c.row.width) (c.height - c.row.height), ?_, ?_, ?_⟩
    · rw [lineFeed_eq, if_pos hbr]
      dsimp only
      rw [List.append_assoc]
    · simp [showData, flushEvs_filterMap]
    · intro e he
      rcases List.mem_append.mp he with hh | hh
      · simp only [List.mem_cons, List.not_mem_nil, or_false] at hh
        rcases hh with rfl | rfl <;> rfl
      · exact flushEvs_noImage _ _ _ _ e hh
  · refine ⟨flushEvs c.row.pieces c.font (c.getOffset c.row.width) (c.y - c.row.height),
      ?_, flushEvs_filterMap _ _ _ _, flushEvs_noImage _ _ _ _⟩
    rw [lineFeed_eq, if_neg hbr]

theorem textLoop_false_spec (parts : List (List Nat)) : ∀ (c : PS) (csx : ℚ),
    ∃ es, (textLoop c parts csx false).out = c.out ++ es ∧
      es.filterMap showData = (wrapShows (c.row.pieces.map Piece.data) parts).2 ∧
      (textLoop c parts csx false).row.pieces.map Piece.data
        = (wrapShows (c.row.pieces.map Piece.data) parts).1 ∧
      ∀ e ∈ es, e.isImage = false := by
  induction parts with
  | nil =>
    intro c csx
    exact ⟨[], by simp [textLoop], by simp [wrapShows], by simp [textLoop, wrapShows],
      by simp⟩
  | cons q rest ih =>
    intro c csx
    obtain ⟨es0, heq0, hfm0, himg0⟩ := lineFeed_facts c
    simp only [textLoop, Bool.false_eq_true, if_false]
    rw [heq0]
    dsimp only
    rw [(setHeight_frame (c.row.reset) c.sizeY).1]
    rw [show (Row.reset c.row).pieces = ([] : List Piece) from rfl, List.nil_append]
    rw [show (replaceEuro (replaceBackslash q)) = escData q from rfl]
    obtain ⟨es1, heq1, hfm1, hpc1, himg1⟩ := ih _ csx
    rw [heq1]
    dsimp only
    simp only [List.map_cons, List.map_nil] at hfm1 hpc1
    refine ⟨es0 ++ es1, by rw [List.append_assoc], ?_, ?_, ?_⟩
    · rw [List.filterMap_append, hfm0, hfm1]
      simp only [wrapShows]
    · rw [hpc1]
      simp only [wrapShows]
    · intro e he
      rcases List.mem_append.mp he with hh | hh
      · exact himg0 e hh
      · exact himg1 e hh

theorem textLoop_true_spec (p : List Nat) (rest : List (List Nat)) (c : PS) (csx : ℚ) :
    ∃ es, (textLoop c (p :: rest) csx true).out = c.out ++ es ∧
      es.filterMap showData
        = (wrapShows (c.row.pieces.map Piece.data ++ [escData p]) rest).2 ∧
      (textLoop c (p :: rest) csx true).row.pieces.map Piece.data
        = (wrapShows (c.row.pieces.map Piece.data ++ [escData p]) rest).1 ∧
      ∀ e ∈ es, e.isImage = false := by
  have hstep : textLoop c (p :: rest) csx true
      = textLoop { c with
          row := { c.row.setHeight c.sizeY with
            width := (c.row.setHeight c.sizeY).width + c.tab + (p.length : ℚ) * csx
            pieces := (c.row.setHeight c.sizeY).pieces ++
              [⟨replaceEuro (replaceBackslash p), 0, (p.length : ℚ) * csx, c.tab,
                c.sizeX, c.sizeY, c.underling, c.bold⟩] }
          tab := 0 } rest csx false := rfl
  rw [hstep]
  set c2 : PS := { c with
      row := { c.row.setHeight c.sizeY with
        width := (c.row.setHeight c.sizeY).width + c.tab + (p.length : ℚ) * csx
        pieces := (c.row.setHeight c.sizeY).pieces ++
          [⟨replaceEuro (replaceBackslash p), 0, (p.length : ℚ) * csx, c.tab,
            c.sizeX, c.sizeY, c.underling, c.bold⟩] }
      tab := 0 } with hc2
  have harg : c2.row.pieces.map Piece.data = c.row.pieces.map Piece.data ++ [escData p] := by
    rw [hc2]
    dsimp only
    rw [(setHeight_frame c.row c.sizeY).1]
    simp [escData]
  obtain ⟨es1, heq1, hfm1, hpc1, himg1⟩ := textLoop_false_spec rest c2 csx
  refine ⟨es1, ?_, ?_, ?_, himg1⟩
  · rw [heq1, hc2]
  · rw [hfm1, harg]
  · rw [hpc1, harg]

/-- C1: `Text` wraps by raw character count.  `splitString` gives the first
chunk the budget derived from `(pageWidth − offset)` (the offset being
tab + current row width) and later chunks the full page-width budget; a
string of length `2N+1` at zero offset splits into chunks of lengths
`N, N, 1`; and each chunk after the first is flushed to the page before
the next is queued, so only the last chunk remains in the row. -/
theorem c1_text_wrapping :
    (∀ (c : PS) (s : List Nat) (w : ℚ) (N : Nat),
        goTrunc (c.width / w) = (N : Int) → 1 ≤ N → s.length = 2 * N + 1 →
        c.splitString s 0 w = [s.take N, (s.drop N).take N, s.drop (2 * N)] ∧
        (c.splitString s 0 w).map List.length = [N, N, 1]) ∧
    (∀ (c : PS) (s : List Nat) (off w : ℚ) (e n : Nat),
        0 < off → goTrunc ((c.width - off) / w) = (e : Int) →
        goTrunc (c.width / w) = (n : Int) → 1 ≤ n → e < s.length →
        ∃ rest, c.splitString s off w = s.take e :: rest ∧
          (e + n < s.length → ∃ rest2, rest = (s.drop e).take n :: rest2)) ∧
    (∀ (c : PS) (s : List Nat) (N : Nat),
        c.tab = 0 → c.row.width = 0 → c.row.pieces = [] → c.sizeX = 1 →
        goTrunc (c.width / charWidth) = (N : Int) → 1 ≤ N → s.length = 2 * N + 1 →
        (∀ b ∈ s, b ≠ 92 ∧ b ≠ 128) →
        (c.Text s none).row.pieces.map Piece.data = [s.drop (2 * N)] ∧
        ((c.Text s none).out.drop c.out.length).filterMap showData
          = [s.take N, (s.drop N).take N]) := by
  refine ⟨?_, ?_, ?_⟩
  · intro c s w N hN hN1 hlen
    have key := splitString_zero_offset c s w N hN hN1 hlen
    refine ⟨key, ?_⟩
    rw [key]
    simp only [List.map_cons, List.map_nil, List.length_take, List.length_drop,
      List.cons.injEq, and_true]
    omega
  · intro c s off w e n hoff he hn hn1 hlt
    exact splitString_first_budget c s off w e n hoff he hn hn1 hlt
  · intro c s N htab hw hp hx hN hN1 hlen hesc
    have hlen0 : ¬ s.length = 0 := by omega
    have hA : escData (s.take N) = s.take N :=
      escData_id _ (fun b hb => hesc b (List.take_subset _ _ hb))
    have hB : escData ((s.drop N).take N) = (s.drop N).take N :=
      escData_id _ (fun b hb => hesc b (List.drop_subset _ _ (List.take_subset _ _ hb)))
    have hD : escData (s.drop (2 * N)) = s.drop (2 * N) :=
      escData_id _ (fun b hb => hesc b (List.drop_subset _ _ hb))
    simp only [PS.Text]
    rw [if_neg hlen0]
    dsimp only [encoder]
    rw [htab, hw, hx]
    rw [show (0 : ℚ) + (0 : ℚ) = 0 from by norm_num]
    rw [show ((1 : Nat) : ℚ) * charWidth = charWidth from by norm_num]
    set S : PS := { skipper := c.skipper
                    tabPositions := c.tabPositions
                    width := c.width
                    height := c.height
                    x := c.x
                    y := c.y
                    tab := 0
                    row := { pieces := c.row.pieces
                             height := c.row.height
                             width := 0
                             align := c.align }
                    font := c.font
                    bold := c.bold
                    sizeX := 1
                    sizeY := c.sizeY
                    align := c.align
                    underling := c.underling
                    out := c.out } with hS
    have hsplit := splitString_zero_offset S s charWidth N hN hN1 hlen
    rw [hsplit]
    obtain ⟨es, hout, hfm, hpc, _⟩ :=
      textLoop_true_spec (s.take N) [(s.drop N).take N, s.drop (2 * N)] S charWidth
    have hrowp : S.row.pieces = ([] : List Piece) := by
      rw [hS]
      exact hp
    have houtS : S.out = c.out := by rw [hS]
    constructor
    · rw [hpc, hrowp]
      simp only [List.map_nil, List.nil_append, wrapShows]
      rw [hD]
    · rw [hout, houtS]
      rw [List.drop_left, hfm, hrowp]
      simp only [List.map_nil, List.nil_append, wrapShows]
      rw [hA, hB]
      simp

/-- Witness for C1: a 5-byte string on a 2-characters-per-line page splits
into chunks of lengths 2, 2, 1, and after `Text` only the last chunk is
still queued. -/
theorem c1_text_wrapping_witness :
    (NewPostscript 2 576).splitString [65, 66, 67, 68, 69] 0 charWidth
      = [[65, 66], [67, 68], [69]] ∧
    ((NewPostscript 2 576).Text [65, 66, 67, 68, 69] none).row.pieces.map Piece.data
      = [[69]] := by
  constructor
  · have h := (c1_text_wrapping.1 (NewPostscript 2 576) [65, 66, 67, 68, 69] charWidth 2
      (by norm_num [goTrunc, NewPostscript, charWidth]) (by decide) (by decide)).1
    rw [h]
    rfl
  · have h := (c1_text_wrapping.2.2 (NewPostscript 2 576) [65, 66, 67, 68, 69] 2
      rfl rfl rfl rfl (by norm_num [goTrunc, NewPostscript, charWidth]) (by decide)
      (by decide) (by decide)).1
    rw [h]
    rfl

/-! ## C8: layout overflow for too-tall images -/
theorem text_noImage (c : PS) (s : List Nat) (enc : Option (List Nat → List Nat)) :
    ∃ es, (c.Text s enc).out = c.out ++ es ∧ ∀ e ∈ es, e.isImage = false := by
  simp only [PS.Text]
  by_cases hlen : s.length = 0
  · rw [if_pos hlen]
    exact ⟨[], by simp, by simp⟩
  · rw [if_neg hlen]
    set S : PS := { skipper := c.skipper
                    tabPositions := c.tabPositions
                    width := c.width
                    height := c.height
                    x := c.x
                    y := c.y
                    tab := c.tab
                    row := { pieces := c.row.pieces
                             height := c.row.height
                             width := c.row.width
                             align := c.align }
                    font := c.font
                    bold := c.bold
                    sizeX := c.sizeX
                    sizeY := c.sizeY
                    align := c.align
                    underling := c.underling
                    out := c.out } with hS
    have hSout : S.out = c.out := by rw [hS]
    cases hparts : S.splitString
        (match enc with
          | some f => f s
          | none => encoder s)
        (c.tab + c.row.width) ((c.sizeX : ℚ) * charWidth) with
    | nil =>
      refine ⟨[], ?_, by simp⟩
      simp [textLoop, hSout]
    | cons p rest =>
      obtain ⟨es, hout, _, _, himg⟩ :=
        textLoop_true_spec p rest S ((c.sizeX : ℚ) * charWidth)
      rw [hSout] at hout
      exact ⟨es, hout, himg⟩

/-- C8 (amended): an image whose scaled device-space height exceeds the
page height is not drawn at all — the call reduces to a plain `Text` call
carrying the textual diagnostic, and no raster-image instruction block is
written (the diagnostic text itself goes through the ordinary text path,
which may wrap and flush lines like any other text). -/
theorem c8_image_overflow (c : PS) (width height : Nat) (bs : List Nat)
    (hov : ((width : ℚ) / ((c.PPL : ℚ) / c.width)) / ((width : ℚ) / (height : ℚ))
      > c.height) :
    c.image width height bs = c.Text diagMsg none ∧
    ∃ es, (c.image width height bs).out = c.out ++ es ∧ ∀ e ∈ es, e.isImage = false := by
  have heq : c.image width height bs = c.Text diagMsg none := by
    simp only [PS.image]
    rw [if_pos hov]
  exact ⟨heq, by rw [heq]; exact text_noImage c diagMsg none⟩

/-- Witness for C8 (amended) at a concrete oversized image. -/
theorem c8_image_overflow_witness :
    psC8.image 576 2000 [] = psC8.Text diagMsg none :=
  (c8_image_overflow psC8 576 2000 []
    (by norm_num [psC8, NewPostscript, PS.PPL, charWidth])).1

theorem splitString_two_chunks (c : PS) (s : List Nat) (w : ℚ) (n : Nat)
    (hn : goTrunc (c.width / w) = (n : Int)) (h1 : n < s.length) (h2 : s.length ≤ 2 * n) :
    c.splitString s 0 w = [s.take n, s.drop n] := by
  simp only [PS.splitString]
  rw [if_neg (by norm_num : ¬ (0 : ℚ) > 0), hn]
  rw [if_neg (by push_cast; omega : ¬ ((n : Int) ≥ (s.length : Int)))]
  simp only [splitLoop]
  rw [if_pos (by push_cast; omega : (n : Int) + (n : Int) ≥ (s.length : Int))]
  have e1 : goSliceI s 0 (n : Int) = s.take n := by
    simp [goSliceI]
  have e2 : s.drop ((n : Int)).toNat = s.drop n := by
    simp
  rw [e1, e2]
  rfl

theorem textLoop_two_y (c : PS) (a b : List Nat) (csx : ℚ) :
    (textLoop c [a, b] csx true).y =
      if c.y - (c.row.setHeight c.sizeY).height < lineFeed
      then c.height - (c.row.setHeight c.sizeY).height
      else c.y - (c.row.setHeight c.sizeY).height := by
  have hstep : textLoop c [a, b] csx true
      = textLoop { c with
          row := { c.row.setHeight c.sizeY with
            width := (c.row.setHeight c.sizeY).width + c.tab + (a.length : ℚ) * csx
            pieces := (c.row.setHeight c.sizeY).pieces ++
              [⟨replaceEuro (replaceBackslash a), 0, (a.length : ℚ) * csx, c.tab,
                c.sizeX, c.sizeY, c.underling, c.bold⟩] }
          tab := 0 } [b] csx false := rfl
  rw [hstep]
  set c2 : PS := { c with
      row := { c.row.setHeight c.sizeY with
        width := (c.row.setHeight c.sizeY).width + c.tab + (a.length : ℚ) * csx
        pieces := (c.row.setHeight c.sizeY).pieces ++
          [⟨replaceEuro (replaceBackslash a), 0, (a.length : ℚ) * csx, c.tab,
            c.sizeX, c.sizeY, c.underling, c.bold⟩] }
      tab := 0 } with hc2
  have h2 : (textLoop c2 [b] csx false).y = (c2.LineFeed).y := rfl
  rw [h2, lineFeed_eq]
  have hy : c2.y = c.y := by rw [hc2]
  have hh : c2.row.height = (c.row.setHeight c.sizeY).height := by rw [hc2]
  have hht : c2.height = c.height := by rw [hc2]
  rw [hy, hh, hht]
  split <;> rfl

/-- C8 counterexample: on the documentation's example configuration, an
image taller than the page is rejected, but the diagnostic text wraps and
flushes a line, so the vertical cursor does move — refuting "the vertical
cursor is not advanced". -/
theorem c8_cursor_advances_counterexample :
    (psC8.image 576 2000 []).y ≠ psC8.y := by
  have himg : psC8.image 576 2000 [] = psC8.Text diagMsg none := by
    simp only [PS.image]
    rw [if_pos (by norm_num [psC8, NewPostscript, PS.PPL, charWidth])]
  rw [himg]
  simp only [PS.Text]
  rw [if_neg (by decide : ¬ diagMsg.length = 0)]
  dsimp only [encoder]
  rw [show psC8.tab = (0 : ℚ) from rfl, show psC8.row.width = (0 : ℚ) from rfl,
    show psC8.sizeX = 1 from rfl]
  rw [show (0 : ℚ) + 0 = 0 from by norm_num]
  rw [show ((1 : Nat) : ℚ) * charWidth = charWidth from by norm_num]
  rw [splitString_two_chunks _ diagMsg charWidth 48
    (by norm_num [goTrunc, psC8, NewPostscript, charWidth]) (by decide) (by decide)]
  rw [textLoop_two_y]
  dsimp only
  rw [setHeight_height]
  rw [show psC8.row.height = (0 : ℚ) from rfl, show psC8.sizeY = 1 from rfl,
    show psC8.y = (400 : ℚ) from rfl, show psC8.height = (400 : ℚ) from rfl]
  norm_num [pieceHt, lineFeed]
